import Mathlib

attribute [local semireducible] Rat.add Rat.mul Rat.sub Rat.inv

/-!
Verification of the qubovert energy-model containers and Metropolis
simulation engine against their natural-language specification.

The definitions below are a shallow embedding of
`qubovert/utils/_qubo_matrix.py` (the `QUBOMatrix`, `IsingCoupling` and
`IsingField` containers) and `qubovert/sim/_simulations.py` (the
`SpinSimulation` and `BooleanSimulation` engines).  Python dictionaries are
embedded as association lists, Python numbers as rationals, and the Python
exceptions as explicit error values.
-/

namespace Qubovert

/-! ## Association-list machinery shared by the containers

A Python `dict` with numeric values is embedded as an association list.
`alookup` is `dict.get`, `aerase` is `dict.pop` and `astore` is the
store-or-prune step shared by every `__setitem__` override (store when the
value is nonzero, remove the key when it is zero). -/

def alookup {κ : Type} [DecidableEq κ] : List (κ × ℚ) → κ → Option ℚ
  | [], _ => none
  | p :: t, k => if p.1 = k then some p.2 else alookup t k

def aerase {κ : Type} [DecidableEq κ] : List (κ × ℚ) → κ → List (κ × ℚ)
  | [], _ => []
  | p :: t, k => if p.1 = k then aerase t k else p :: aerase t k

/-- The body that `QUBOMatrix.__setitem__` (and `IsingField.__setitem__`)
runs once the key format has been checked and the key canonicalized:
`if value: super().__setitem__(k, value) else: self.pop(k, 0)`. -/
def astore {κ : Type} [DecidableEq κ] (d : List (κ × ℚ)) (k : κ) (v : ℚ) :
    List (κ × ℚ) :=
  if v = 0 then aerase d k else (k, v) :: aerase d k

theorem alookup_nil {κ : Type} [DecidableEq κ] (k : κ) :
    alookup ([] : List (κ × ℚ)) k = none := rfl

theorem alookup_cons {κ : Type} [DecidableEq κ] (p : κ × ℚ)
    (t : List (κ × ℚ)) (k : κ) :
    alookup (p :: t) k = if p.1 = k then some p.2 else alookup t k := rfl

theorem alookup_aerase {κ : Type} [DecidableEq κ] (d : List (κ × ℚ))
    (k k' : κ) :
    alookup (aerase d k) k' = if k' = k then none else alookup d k' := by
  induction d with
  | nil => simp [aerase, alookup]
  | cons p t ih =>
    simp only [aerase]
    by_cases hp : p.1 = k
    · rw [if_pos hp, ih]
      by_cases hk : k' = k
      · simp [hk]
      · have hpk : p.1 ≠ k' := fun hc => hk (hc.symm.trans hp)
        simp [hk, alookup, hpk]
    · rw [if_neg hp]
      by_cases hpk : p.1 = k'
      · have hk : ¬ k' = k := fun h => hp (hpk.trans h)
        simp [alookup, hpk, hk]
      · simp [alookup, hpk, ih]

theorem alookup_astore {κ : Type} [DecidableEq κ] (d : List (κ × ℚ))
    (k k' : κ) (v : ℚ) :
    alookup (astore d k v) k' =
      if k' = k then (if v = 0 then none else some v) else alookup d k' := by
  unfold astore
  by_cases hv : v = 0
  · simp [hv, alookup_aerase]
  · by_cases hk : k' = k
    · subst hk; simp [hv, alookup]
    · have hk2 : ¬ k = k' := fun h => hk h.symm
      simp [hv, hk, hk2, alookup, alookup_aerase]

theorem mem_aerase {κ : Type} [DecidableEq κ] {d : List (κ × ℚ)} {k : κ}
    {p : κ × ℚ} (h : p ∈ aerase d k) : p ∈ d := by
  induction d with
  | nil => simp [aerase] at h
  | cons q t ih =>
    by_cases hq : q.1 = k
    · simp only [aerase, if_pos hq] at h
      exact List.mem_cons_of_mem _ (ih h)
    · simp only [aerase, if_neg hq, List.mem_cons] at h
      rcases h with h | h
      · exact h ▸ List.mem_cons_self _ _
      · exact List.mem_cons_of_mem _ (ih h)

/-- Zero-freeness: no stored entry has a zero value. -/
def Zerofree {κ : Type} (d : List (κ × ℚ)) : Prop := ∀ p ∈ d, p.2 ≠ 0

theorem zerofree_astore {κ : Type} [DecidableEq κ] {d : List (κ × ℚ)}
    (hd : Zerofree d) (k : κ) (v : ℚ) : Zerofree (astore d k v) := by
  unfold astore
  by_cases hv : v = 0
  · simp only [if_pos hv]
    exact fun p hp => hd p (mem_aerase hp)
  · simp only [if_neg hv]
    intro p hp
    rcases List.mem_cons.1 hp with h | h
    · rw [h]; exact hv
    · exact hd p (mem_aerase h)

theorem alookup_eq_none_of_not_mem {κ : Type} [DecidableEq κ]
    {d : List (κ × ℚ)} {k : κ} (h : k ∉ d.map Prod.fst) :
    alookup d k = none := by
  induction d with
  | nil => rfl
  | cons p t ih =>
    simp only [List.map_cons, List.mem_cons] at h
    push_neg at h
    simp [alookup, Ne.symm h.1, ih h.2]

/-! ## The QUBOMatrix / IsingCoupling / IsingField containers

From `qubovert/utils/_qubo_matrix.py`.  `QUBOMatrix` keys are pairs of
non-negative integers, canonicalized by sorting; `IsingCoupling` additionally
rejects equal labels; `IsingField` keys are single non-negative integers.
A raised Python `KeyError` (bad key format) or `ZeroDivisionError` is
embedded as `Except.error ()`. -/

/-- A `QUBOMatrix` / `IsingCoupling` dictionary: pair keys, rational values. -/
abbrev QM := List ((ℤ × ℤ) × ℚ)

/-- An `IsingField` dictionary: integer keys, rational values. -/
abbrev FM := List (ℤ × ℚ)

/-- `tuple(sorted(key))` for a pair key. -/
def sortPair (k : ℤ × ℤ) : ℤ × ℤ := if k.1 ≤ k.2 then k else (k.2, k.1)

theorem sortPair_swap (a b : ℤ) : sortPair (a, b) = sortPair (b, a) := by
  unfold sortPair
  rcases le_or_lt a b with h | h
  · rcases le_or_lt b a with h2 | h2
    · simp [h, h2, le_antisymm h h2]
    · simp [h, not_le.2 h2]
  · simp [not_le.2 h, h.le]

/-- `QUBOMatrix.__setitem__`: reject keys that are not pairs of two
non-negative integers, canonicalize by sorting, store nonzero values and
remove the key on a zero value. -/
def qubo_setitem (d : QM) (k : ℤ × ℤ) (v : ℚ) : Except Unit QM :=
  if 0 ≤ k.1 ∧ 0 ≤ k.2 then Except.ok (astore d (sortPair k) v)
  else Except.error ()

/-- `IsingCoupling.__setitem__`: additionally reject equal labels, then
defer to `QUBOMatrix.__setitem__`. -/
def ising_setitem (d : QM) (k : ℤ × ℤ) (v : ℚ) : Except Unit QM :=
  if k.1 = k.2 then Except.error () else qubo_setitem d k v

/-- `IsingField.__setitem__`: reject negative integer keys, store nonzero
values and remove the key on a zero value. -/
def field_setitem (d : FM) (k : ℤ) (v : ℚ) : Except Unit FM :=
  if 0 ≤ k then Except.ok (astore d k v) else Except.error ()

/-- `QUBOMatrix.__getitem__` (inherited by both subclasses): sort the key and
return the stored value, defaulting to `0` when the key is absent. -/
def qubo_getitem (d : QM) (k : ℤ × ℤ) : ℚ := (alookup d (sortPair k)).getD 0

/-- `IsingField` lookups go through the same inherited `__getitem__`; an
integer key is not sortable, so the `TypeError` handler leaves it as is. -/
def field_getitem (d : FM) (k : ℤ) : ℚ := (alookup d k).getD 0

/-- Which concrete container class a pair-keyed dictionary is: its
`__setitem__` is dispatched dynamically in every mutating method. -/
inductive Cls
  | qubo
  | ic

def cls_setitem : Cls → QM → ℤ × ℤ → ℚ → Except Unit QM
  | Cls.qubo => qubo_setitem
  | Cls.ic => ising_setitem

/-- `QUBOMatrix.__init__` (and `IsingCoupling.__init__`): snapshot the raw
items, clear, then run `self[key] += value` for each item. -/
def quboCons (cls : Cls) (items : List ((ℤ × ℤ) × ℚ)) : Except Unit QM :=
  items.foldlM (fun d kv => cls_setitem cls d kv.1 (qubo_getitem d kv.1 + kv.2)) []

/-- `IsingField.__init__` via the same inherited constructor. -/
def fieldCons (items : List (ℤ × ℚ)) : Except Unit FM :=
  items.foldlM (fun d kv => field_setitem d kv.1 (field_getitem d kv.1 + kv.2)) []

/-- One mutating operation on a pair-keyed container: a single
`__setitem__`, the `update` method, in-place `+=` / `-=` of a plain
mapping, and in-place scalar `*=` / `/=`. -/
inductive QOp
  | setI (k : ℤ × ℤ) (v : ℚ)
  | updateW (l : List ((ℤ × ℤ) × ℚ))
  | addW (l : List ((ℤ × ℤ) × ℚ))
  | subW (l : List ((ℤ × ℤ) × ℚ))
  | mulBy (c : ℚ)
  | divBy (c : ℚ)

def applyQOp (cls : Cls) (d : QM) : QOp → Except Unit QM
  | QOp.setI k v => cls_setitem cls d k v
  | QOp.updateW l => l.foldlM (fun d' kv => cls_setitem cls d' kv.1 kv.2) d
  | QOp.addW l =>
      l.foldlM (fun d' kv => cls_setitem cls d' kv.1 (qubo_getitem d' kv.1 + kv.2)) d
  | QOp.subW l =>
      l.foldlM (fun d' kv => cls_setitem cls d' kv.1 (qubo_getitem d' kv.1 - kv.2)) d
  | QOp.mulBy c =>
      (d.map Prod.fst).foldlM (fun d' k => cls_setitem cls d' k (qubo_getitem d' k * c)) d
  | QOp.divBy c =>
      if c = 0 then Except.error ()
      else (d.map Prod.fst).foldlM
        (fun d' k => cls_setitem cls d' k (qubo_getitem d' k / c)) d

/-- The same operations on an `IsingField`. -/
inductive FOp
  | setI (k : ℤ) (v : ℚ)
  | updateW (l : List (ℤ × ℚ))
  | addW (l : List (ℤ × ℚ))
  | subW (l : List (ℤ × ℚ))
  | mulBy (c : ℚ)
  | divBy (c : ℚ)

def applyFOp (d : FM) : FOp → Except Unit FM
  | FOp.setI k v => field_setitem d k v
  | FOp.updateW l => l.foldlM (fun d' kv => field_setitem d' kv.1 kv.2) d
  | FOp.addW l =>
      l.foldlM (fun d' kv => field_setitem d' kv.1 (field_getitem d' kv.1 + kv.2)) d
  | FOp.subW l =>
      l.foldlM (fun d' kv => field_setitem d' kv.1 (field_getitem d' kv.1 - kv.2)) d
  | FOp.mulBy c =>
      (d.map Prod.fst).foldlM (fun d' k => field_setitem d' k (field_getitem d' k * c)) d
  | FOp.divBy c =>
      if c = 0 then Except.error ()
      else (d.map Prod.fst).foldlM
        (fun d' k => field_setitem d' k (field_getitem d' k / c)) d

/-- Construct a pair-keyed container from raw items, then run a sequence of
mutating operations on it. -/
def runQOps (cls : Cls) (items : List ((ℤ × ℤ) × ℚ)) (ops : List QOp) :
    Except Unit QM :=
  (quboCons cls items).bind (fun d => ops.foldlM (applyQOp cls) d)

def runFOps (items : List (ℤ × ℚ)) (ops : List FOp) : Except Unit FM :=
  (fieldCons items).bind (fun d => ops.foldlM applyFOp d)

/-! ## Container invariants -/

theorem cls_setitem_ok {cls : Cls} {d : QM} {k : ℤ × ℤ} {v : ℚ} {d' : QM}
    (h : cls_setitem cls d k v = Except.ok d') :
    d' = astore d (sortPair k) v := by
  cases cls with
  | qubo =>
    simp only [cls_setitem, qubo_setitem] at h
    split at h
    · cases h; rfl
    · cases h
  | ic =>
    simp only [cls_setitem, ising_setitem, qubo_setitem] at h
    split at h
    · cases h
    · split at h
      · cases h; rfl
      · cases h

theorem field_setitem_ok {d : FM} {k : ℤ} {v : ℚ} {d' : FM}
    (h : field_setitem d k v = Except.ok d') : d' = astore d k v := by
  simp only [field_setitem] at h
  split at h
  · cases h; rfl
  · cases h

/-- Error-monad fold preservation: a property preserved by every successful
step is preserved by a successful fold. -/
theorem foldlM_except_pres {σ β : Type} (P : σ → Prop)
    (f : σ → β → Except Unit σ)
    (hf : ∀ s b s', f s b = Except.ok s' → P s → P s') :
    ∀ (l : List β) (s s' : σ), l.foldlM f s = Except.ok s' → P s → P s' := by
  intro l
  induction l with
  | nil =>
    intro s s' h hs
    simp only [List.foldlM_nil] at h
    cases h
    exact hs
  | cons b t ih =>
    intro s s' h hs
    simp only [List.foldlM_cons] at h
    cases hstep : f s b with
    | error e => rw [hstep] at h; cases h
    | ok s1 =>
      rw [hstep] at h
      exact ih s1 s' h (hf s b s1 hstep hs)

theorem zerofree_cls_setitem {cls : Cls} {d : QM} {k : ℤ × ℤ} {v : ℚ} {d' : QM}
    (h : cls_setitem cls d k v = Except.ok d') (hd : Zerofree d) :
    Zerofree d' := by
  rw [cls_setitem_ok h]
  exact zerofree_astore hd _ _

theorem zerofree_field_setitem {d : FM} {k : ℤ} {v : ℚ} {d' : FM}
    (h : field_setitem d k v = Except.ok d') (hd : Zerofree d) :
    Zerofree d' := by
  rw [field_setitem_ok h]
  exact zerofree_astore hd _ _

theorem zerofree_applyQOp {cls : Cls} {d : QM} {op : QOp} {d' : QM}
    (h : applyQOp cls d op = Except.ok d') (hd : Zerofree d) : Zerofree d' := by
  cases op with
  | setI k v => exact zerofree_cls_setitem h hd
  | updateW l =>
    exact foldlM_except_pres Zerofree _
      (fun s b s' hs => zerofree_cls_setitem hs) l d d' h hd
  | addW l =>
    exact foldlM_except_pres Zerofree _
      (fun s b s' hs => zerofree_cls_setitem hs) l d d' h hd
  | subW l =>
    exact foldlM_except_pres Zerofree _
      (fun s b s' hs => zerofree_cls_setitem hs) l d d' h hd
  | mulBy c =>
    exact foldlM_except_pres Zerofree _
      (fun s b s' hs => zerofree_cls_setitem hs) (d.map Prod.fst) d d' h hd
  | divBy c =>
    simp only [applyQOp] at h
    split at h
    · cases h
    · exact foldlM_except_pres Zerofree _
        (fun s b s' hs => zerofree_cls_setitem hs) (d.map Prod.fst) d d' h hd

theorem zerofree_applyFOp {d : FM} {op : FOp} {d' : FM}
    (h : applyFOp d op = Except.ok d') (hd : Zerofree d) : Zerofree d' := by
  cases op with
  | setI k v => exact zerofree_field_setitem h hd
  | updateW l =>
    exact foldlM_except_pres Zerofree _
      (fun s b s' hs => zerofree_field_setitem hs) l d d' h hd
  | addW l =>
    exact foldlM_except_pres Zerofree _
      (fun s b s' hs => zerofree_field_setitem hs) l d d' h hd
  | subW l =>
    exact foldlM_except_pres Zerofree _
      (fun s b s' hs => zerofree_field_setitem hs) l d d' h hd
  | mulBy c =>
    exact foldlM_except_pres Zerofree _
      (fun s b s' hs => zerofree_field_setitem hs) (d.map Prod.fst) d d' h hd
  | divBy c =>
    simp only [applyFOp] at h
    split at h
    · cases h
    · exact foldlM_except_pres Zerofree _
        (fun s b s' hs => zerofree_field_setitem hs) (d.map Prod.fst) d d' h hd

theorem zerofree_runQOps {cls : Cls} {items : List ((ℤ × ℤ) × ℚ)}
    {ops : List QOp} {d : QM} (h : runQOps cls items ops = Except.ok d) :
    Zerofree d := by
  simp only [runQOps] at h
  cases hc : quboCons cls items with
  | error e => rw [hc] at h; cases h
  | ok d0 =>
    rw [hc] at h
    have hd0 : Zerofree d0 := by
      refine foldlM_except_pres Zerofree _
        (fun s b s' hs => zerofree_cls_setitem hs) items [] d0 hc ?_
      intro p hp
      cases hp
    exact foldlM_except_pres Zerofree _
      (fun s b s' hs => zerofree_applyQOp hs) ops d0 d h hd0

theorem zerofree_runFOps {items : List (ℤ × ℚ)} {ops : List FOp} {d : FM}
    (h : runFOps items ops = Except.ok d) : Zerofree d := by
  simp only [runFOps] at h
  cases hc : fieldCons items with
  | error e => rw [hc] at h; cases h
  | ok d0 =>
    rw [hc] at h
    have hd0 : Zerofree d0 := by
      refine foldlM_except_pres Zerofree _
        (fun s b s' hs => zerofree_field_setitem hs) items [] d0 hc ?_
      intro p hp
      cases hp
    exact foldlM_except_pres Zerofree _
      (fun s b s' hs => zerofree_applyFOp hs) ops d0 d h hd0

theorem qubo_getitem_comm (d : QM) (a b : ℤ) :
    qubo_getitem d (a, b) = qubo_getitem d (b, a) := by
  unfold qubo_getitem
  rw [sortPair_swap]

theorem qubo_getitem_absent {d : QM} {k : ℤ × ℤ}
    (h : sortPair k ∉ d.map Prod.fst) : qubo_getitem d k = 0 := by
  unfold qubo_getitem
  rw [alookup_eq_none_of_not_mem h]
  rfl

theorem field_getitem_absent {d : FM} {k : ℤ} (h : k ∉ d.map Prod.fst) :
    field_getitem d k = 0 := by
  unfold field_getitem
  rw [alookup_eq_none_of_not_mem h]
  rfl

theorem qubo_getitem_congr {k1 k2 : ℤ × ℤ} (h : sortPair k1 = sortPair k2)
    (d : QM) : qubo_getitem d k1 = qubo_getitem d k2 := by
  unfold qubo_getitem
  rw [h]

theorem qubo_getitem_astore (d : QM) (c : ℤ × ℤ) (v : ℚ) (k : ℤ × ℤ) :
    qubo_getitem (astore d c v) k =
      if sortPair k = c then v else qubo_getitem d k := by
  unfold qubo_getitem
  rw [alookup_astore]
  by_cases hk : sortPair k = c
  · by_cases hv : v = 0 <;> simp [hk, hv]
  · simp [hk]

/-- Accumulation invariant of the constructor loop `self[key] += value`:
the resulting lookup at any key is the starting lookup plus the sum of the
coefficients of the processed items whose canonicalized key matches. -/
theorem quboCons_aux (cls : Cls) :
    ∀ (items : List ((ℤ × ℤ) × ℚ)) (d0 d : QM),
      items.foldlM
        (fun d' kv => cls_setitem cls d' kv.1 (qubo_getitem d' kv.1 + kv.2)) d0 =
        Except.ok d →
      ∀ k : ℤ × ℤ, qubo_getitem d k = qubo_getitem d0 k +
        ((items.filter (fun p => decide (sortPair p.1 = sortPair k))).map
          Prod.snd).sum := by
  intro items
  induction items with
  | nil =>
    intro d0 d h k
    simp only [List.foldlM_nil] at h
    cases h
    simp
  | cons kv t ih =>
    intro d0 d h k
    simp only [List.foldlM_cons] at h
    cases hstep : cls_setitem cls d0 kv.1 (qubo_getitem d0 kv.1 + kv.2) with
    | error e => rw [hstep] at h; cases h
    | ok d1 =>
      rw [hstep] at h
      have hd1 : d1 = astore d0 (sortPair kv.1) (qubo_getitem d0 kv.1 + kv.2) :=
        cls_setitem_ok hstep
      have hrec := ih d1 d h k
      by_cases hc : sortPair kv.1 = sortPair k
      · have h1 : qubo_getitem d1 k = qubo_getitem d0 k + kv.2 := by
          rw [hd1, qubo_getitem_astore, if_pos hc.symm,
            qubo_getitem_congr hc d0]
        rw [hrec, h1, List.filter_cons, if_pos (by simpa using hc)]
        simp only [List.map_cons, List.sum_cons]
        ring
      · have h1 : qubo_getitem d1 k = qubo_getitem d0 k := by
          rw [hd1, qubo_getitem_astore, if_neg (fun hh => hc hh.symm)]
        rw [hrec, h1, List.filter_cons, if_neg (by simpa using hc)]

/-- C3: for every pair-keyed container (`QUBOMatrix` or `IsingCoupling`)
built from raw items and mutated by any successful sequence of insertions,
`update` calls and in-place arithmetic, no stored entry has a zero
coefficient, lookup is invariant under reordering the two labels, and lookup
of an absent key returns 0; and likewise for `IsingField` (whose keys are
single integers, so label reordering is vacuous). -/
theorem c3_container_invariants :
    (∀ (cls : Cls) (items : List ((ℤ × ℤ) × ℚ)) (ops : List QOp) (d : QM),
       runQOps cls items ops = Except.ok d →
       Zerofree d ∧
       (∀ a b : ℤ, qubo_getitem d (a, b) = qubo_getitem d (b, a)) ∧
       (∀ k : ℤ × ℤ, sortPair k ∉ d.map Prod.fst → qubo_getitem d k = 0))
    ∧ (∀ (items : List (ℤ × ℚ)) (ops : List FOp) (d : FM),
       runFOps items ops = Except.ok d →
       Zerofree d ∧
       (∀ k : ℤ, k ∉ d.map Prod.fst → field_getitem d k = 0)) := by
  constructor
  · intro cls items ops d h
    exact ⟨zerofree_runQOps h, fun a b => qubo_getitem_comm d a b,
      fun k hk => qubo_getitem_absent hk⟩
  · intro items ops d h
    exact ⟨zerofree_runFOps h, fun k hk => field_getitem_absent hk⟩

/-- Witness for C3 at a concrete container and operation sequence. -/
theorem c3_container_invariants_witness :
    runQOps Cls.qubo [((0, 1), (1 : ℚ)), ((1, 0), 2)] [QOp.mulBy 2] =
      Except.ok [((0, 1), (6 : ℚ))] ∧
    Zerofree ([((0, 1), (6 : ℚ))] : QM) ∧
    qubo_getitem [((0, 1), (6 : ℚ))] (1, 0) =
      qubo_getitem [((0, 1), (6 : ℚ))] (0, 1) ∧
    runFOps [(0, (1 : ℚ)), (0, -1)] [] = Except.ok [] ∧
    field_getitem ([] : FM) 5 = 0 :=
  ⟨by rfl,
   (c3_container_invariants.1 Cls.qubo [((0, 1), (1 : ℚ)), ((1, 0), 2)]
     [QOp.mulBy 2] [((0, 1), (6 : ℚ))] (by rfl)).1,
   (c3_container_invariants.1 Cls.qubo [((0, 1), (1 : ℚ)), ((1, 0), 2)]
     [QOp.mulBy 2] [((0, 1), (6 : ℚ))] (by rfl)).2.1 1 0,
   by rfl,
   (c3_container_invariants.2 [(0, (1 : ℚ)), (0, -1)] [] [] (by rfl)).2 5
     (by simp)⟩

/-- C10: constructing a `QUBOMatrix` (or `IsingCoupling`) from a plain
mapping accumulates coefficients of keys that differ only in label order
(rather than overwriting) and drops entries whose accumulated coefficient is
zero: every lookup equals the sum of the matching raw coefficients, and no
stored entry is zero. -/
theorem c10_construction_accumulates (cls : Cls)
    (items : List ((ℤ × ℤ) × ℚ)) (d : QM)
    (h : quboCons cls items = Except.ok d) :
    (∀ k : ℤ × ℤ, qubo_getitem d k =
      ((items.filter (fun p => decide (sortPair p.1 = sortPair k))).map
        Prod.snd).sum)
    ∧ Zerofree d := by
  constructor
  · intro k
    have := quboCons_aux cls items [] d h k
    simpa [qubo_getitem, alookup] using this
  · refine foldlM_except_pres Zerofree _
      (fun s b s' hs => zerofree_cls_setitem hs) items [] d h ?_
    intro p hp
    cases hp

/-- Witness for C10: the spec's own example, construction from the mapping
with raw entries ((0,1), 1) and ((1,0), 2) yields the single stored entry
((0,1), 3). -/
theorem c10_construction_accumulates_witness :
    quboCons Cls.qubo [((0, 1), (1 : ℚ)), ((1, 0), 2)] =
      Except.ok [((0, 1), (3 : ℚ))] ∧
    qubo_getitem [((0, 1), (3 : ℚ))] (0, 1) =
      (([((0, 1), (1 : ℚ)), ((1, 0), 2)].filter
        (fun p => decide (sortPair p.1 = sortPair (0, 1)))).map Prod.snd).sum :=
  ⟨by rfl,
   (c10_construction_accumulates Cls.qubo [((0, 1), (1 : ℚ)), ((1, 0), 2)]
     [((0, 1), (3 : ℚ))] (by rfl)).1 (0, 1)⟩

/-! ## The spin / boolean Metropolis simulation

From `qubovert/sim/_simulations.py`.  States are embedded as total functions
on labels, read only at the engine's variables (the Python `_state` dict is
the restriction of that function to `variables`).  A raised `ValueError` is
an explicit error value paired with the object state left behind by the
call, so that a mutation performed before the raise stays visible. -/

/-- A spin model: the items of the Python model dict, a list of
(term, coefficient) pairs with pairwise-distinct term keys. -/
abbrev Model := List (List ℕ × ℚ)

/-- The engines' failure taxonomy from the spec (the Python `ValueError`s).
`invalidScheduleEntry` appears in the spec's taxonomy only; the source code
never raises it. -/
inductive SimErr
  | invalidStateValue
  | invalidUpdateCount
  | invalidScheduleEntry
deriving DecidableEq

/-- `SpinSimulation`: variable list, current state, initial state, history
buffer, history capacity, and the model (from which the per-variable
adjacency index `_subgraphs` is derived). -/
structure Sim where
  vars : List ℕ
  state : ℕ → ℤ
  initialState : ℕ → ℤ
  pastStates : List (ℕ → ℤ)
  memory : ℕ
  model : Model

/-- Deterministic stand-in for the process-wide random source (the external
`random` module): a linear congruential state.  No claim below depends on the
distribution of its draws. -/
structure Rng where
  val : ℕ
deriving DecidableEq

/-- `random.seed(seed)`: deterministic re-initialization of the source. -/
def rngSeed (seed : ℤ) : Rng := ⟨seed.natAbs⟩

def rngStep (r : Rng) : Rng := ⟨(r.val * 1103515245 + 12345) % 2147483648⟩

/-- `random.choices(l, k=k)`: `k` draws from `l` with replacement. -/
def rngChoices (l : List ℕ) : ℕ → Rng → List ℕ × Rng
  | 0, r => ([], r)
  | k + 1, r =>
    let rest := rngChoices l k (rngStep r)
    (l.getD (r.val % l.length) 0 :: rest.1, rest.2)

/-- `random.random()`: a uniform draw in [0, 1). -/
def rngUnif (r : Rng) : ℚ × Rng := (((r.val % 1000 : ℕ) : ℚ) / 1000, rngStep r)

/-- Stand-in for the external exponential `numpy.exp`; no claim below
depends on its values, only on its totality. -/
def expQ (x : ℚ) : ℚ := max 0 (1 + x)

/-- Modelled from the spec: `puso_value` (from `qubovert.utils`, whose file
is not under src/) — "the sum over all terms of coefficient × product of the
term's variables' current values". -/
def puso_value (st : ℕ → ℤ) (model : Model) : ℚ :=
  (model.map (fun tc => tc.2 * (tc.1.map (fun v => ((st v : ℤ) : ℚ))).prod)).sum

/-- The per-variable adjacency index `self._subgraphs[i]` built in
`SpinSimulation.__init__`: the model terms incident to `i`, with their
coefficients (model dicts have pairwise-distinct term keys, so the
dict-of-dicts in the source holds exactly these items). -/
def subgraph (i : ℕ) (model : Model) : Model :=
  model.filter (fun tc => decide (i ∈ tc.1))

/-- Negate the value of variable `i` in an assignment. -/
def flipAssign (i : ℕ) (s : ℕ → ℤ) : ℕ → ℤ :=
  fun v => if v = i then -(s v) else s v

/-- `SpinSimulation._flip_bit`. -/
def flip_bit (sim : Sim) (i : ℕ) : Sim :=
  { sim with state := flipAssign i sim.state }

/-- `SpinSimulation._add_past_state`: when `memory` is nonzero, append a
snapshot of the current state and pop the oldest snapshot if over
capacity. -/
def add_past_state (sim : Sim) : Sim :=
  if sim.memory = 0 then sim
  else
    { sim with pastStates :=
        if sim.memory < (sim.pastStates ++ [sim.state]).length
        then (sim.pastStates ++ [sim.state]).tail
        else sim.pastStates ++ [sim.state] }

/-- The Python slice `l[j:]` for an arbitrary integer start `j`. -/
def pySliceFrom {α : Type} (l : List α) (j : ℤ) : List α :=
  if 0 ≤ j then l.drop j.toNat else l.drop (l.length - (-j).toNat)

/-- `SpinSimulation.get_past_states`: `num_states = 1` short-circuits to the
current state; `None` is replaced by `memory`; then the source returns
`self._past_states[-num_states+1:]` as copies followed by the current
state. -/
def get_past_states (sim : Sim) (numStates : Option ℤ) : List (ℕ → ℤ) :=
  if numStates = some 1 then [sim.state]
  else
    pySliceFrom sim.pastStates (1 - numStates.getD (sim.memory : ℤ)) ++
      [sim.state]

/-- The last `k` elements of a list (all of it when `k` exceeds the
length). -/
def takeLast {α : Type} (l : List α) (k : ℕ) : List α := l.drop (l.length - k)

/-- The body of the sweep loop of `SpinSimulation.update` for one drawn
variable `i`: compute `dE = -2 * puso_value(state, subgraphs[i])` and flip
when `dE <= 0`, or — only at nonzero temperature, consuming one uniform
draw — when the draw is below `exp(-dE / T)`. -/
def metropolis_step (T : ℚ) (sr : Sim × Rng) (i : ℕ) : Sim × Rng :=
  let dE := -2 * puso_value sr.1.state (subgraph i sr.1.model)
  if dE ≤ 0 then (flip_bit sr.1 i, sr.2)
  else if T = 0 then sr
  else
    let u := rngUnif sr.2
    if u.1 < expQ (-dE / T) then (flip_bit sr.1 i, u.2) else (sr.1, u.2)

/-- One sweep: draw as many variables as there are (with replacement), then
run the candidate-flip body on each in draw order. -/
def doSweep (T : ℚ) (sim : Sim) (rng : Rng) : Sim × Rng :=
  let draws := rngChoices sim.vars sim.vars.length rng
  draws.1.foldl (metropolis_step T) (sim, draws.2)

/-- The `num_updates == 1` branch of `update`: snapshot, then sweep. -/
def update1 (T : ℚ) (sr : Sim × Rng) : Sim × Rng :=
  doSweep T (add_past_state sr.1) sr.2

/-- The seeding prologue shared by `update` and `schedule_update`. -/
def applySeed (rng : Rng) : Option ℤ → Rng
  | some sd => rngSeed sd
  | none => rng

/-- `SpinSimulation.update(T, num_updates, seed)`: seed if given, then
validate the sweep count (negative counts raise), then run the sweeps; a
count larger than one loops single updates, a count of zero does nothing. -/
def update (sim : Sim) (rng : Rng) (T : ℚ) (numUpdates : ℤ)
    (seed : Option ℤ) : Option SimErr × Sim × Rng :=
  if numUpdates < 0 then
    (some SimErr.invalidUpdateCount, sim, applySeed rng seed)
  else if 1 < numUpdates then
    (none, (update1 T)^[numUpdates.toNat] (sim, applySeed rng seed))
  else if numUpdates = 1 then (none, update1 T (sim, applySeed rng seed))
  else (none, sim, applySeed rng seed)

/-- `SpinSimulation.schedule_update(schedule, seed)`: seed if given, then
call `update(T, n)` for each phase in order; a raise aborts the remaining
phases, keeping the mutations already made. -/
def schedule_update (sim : Sim) (rng : Rng) (schedule : List (ℚ × ℤ))
    (seed : Option ℤ) : Option SimErr × Sim × Rng :=
  schedule.foldl
    (fun acc p =>
      match acc.1 with
      | some _ => acc
      | none => update acc.2.1 acc.2.2 p.1 p.2 none)
    (none, sim, applySeed rng seed)

/-- `SpinSimulation.set_state`: the source assigns `self._state` (the given
assignment restricted to the variables) first and only then validates the
values, so the new state is stored even when the call raises. -/
def set_state (sim : Sim) (st : ℕ → ℤ) : Option SimErr × Sim :=
  if sim.vars.any (fun v => decide (st v ≠ 1 ∧ st v ≠ -1)) then
    (some SimErr.invalidStateValue, { sim with state := st })
  else (none, { sim with state := st })

/-- Modelled from the spec: `boolean_to_spin` (from `qubovert.utils`, whose
file is not under src/) — the domain mapping `boolean = (1 - spin) / 2`,
whose inverse is `spin = 1 - 2 * boolean`. -/
def boolean_to_spin (st : ℕ → ℤ) : ℕ → ℤ := fun v => 1 - 2 * st v

/-- `BooleanSimulation.set_state`: validates the boolean values first and
only then stores the converted state, so a failing call leaves the engine
unchanged. -/
def bool_set_state (sim : Sim) (st : ℕ → ℤ) : Option SimErr × Sim :=
  if sim.vars.any (fun v => decide (st v ≠ 0 ∧ st v ≠ 1)) then
    (some SimErr.invalidStateValue, sim)
  else (none, { sim with state := boolean_to_spin st })

/-- `SpinSimulation.__init__` for a dict model and a supplied initial-state
dict: the variables are the initial dict's keys, the history starts empty.
(Construction validates the initial state through `set_state`; the claims
below are about successfully constructed engines.) -/
def initSim (model : Model) (vars : List ℕ) (st : ℕ → ℤ) (memory : ℕ) :
    Sim :=
  { vars := vars, state := st, initialState := st,
    pastStates := [], memory := memory, model := model }

/-- One caller-visible mutating call on the engine: an `update` or a
`schedule_update` (the object survives a raised `ValueError`, keeping the
mutations the call made before raising). -/
inductive SimOp
  | upd (T : ℚ) (n : ℤ) (seed : Option ℤ)
  | sched (phases : List (ℚ × ℤ)) (seed : Option ℤ)

def applySimOp (sr : Sim × Rng) : SimOp → Sim × Rng
  | SimOp.upd T n seed => (update sr.1 sr.2 T n seed).2
  | SimOp.sched ph seed => (schedule_update sr.1 sr.2 ph seed).2

def runSimOps (sr : Sim × Rng) (ops : List SimOp) : Sim × Rng :=
  ops.foldl applySimOp sr

/-- The full energy of the engine's current state under its model. -/
def spinEnergy (sim : Sim) : ℚ := puso_value sim.state sim.model

/-- The spec-side right-hand side of the schedule-equivalence property:
seed once, then issue, for each phase in order, that phase's number of
single-sweep `update` calls at that phase's temperature. -/
def singleUpdates (sr : Sim × Rng) (phases : List (ℚ × ℤ)) : Sim × Rng :=
  phases.foldl
    (fun sr' p =>
      (fun sr'' => (update sr''.1 sr''.2 p.1 1 none).2)^[p.2.toNat] sr')
    sr

/-! ## Delta-correctness of the local energy computation -/

theorem puso_value_nil (st : ℕ → ℤ) : puso_value st [] = 0 := rfl

theorem puso_value_cons (st : ℕ → ℤ) (tc : List ℕ × ℚ) (rest : Model) :
    puso_value st (tc :: rest) =
      tc.2 * (tc.1.map (fun v => ((st v : ℤ) : ℚ))).prod + puso_value st rest := by
  simp [puso_value]

theorem subgraph_cons (i : ℕ) (tc : List ℕ × ℚ) (rest : Model) :
    subgraph i (tc :: rest) =
      if i ∈ tc.1 then tc :: subgraph i rest else subgraph i rest := by
  simp only [subgraph, List.filter_cons]
  by_cases h : i ∈ tc.1 <;> simp [h]

theorem prod_flip_not_mem (i : ℕ) (s : ℕ → ℤ) {t : List ℕ} (h : i ∉ t) :
    (t.map (fun v => ((flipAssign i s v : ℤ) : ℚ))).prod =
      (t.map (fun v => ((s v : ℤ) : ℚ))).prod := by
  have : ∀ v ∈ t, ((flipAssign i s v : ℤ) : ℚ) = ((s v : ℤ) : ℚ) := by
    intro v hv
    have hvi : v ≠ i := fun hh => h (hh ▸ hv)
    simp [flipAssign, hvi]
  rw [List.map_congr_left this]

theorem prod_flip_mem (i : ℕ) (s : ℕ → ℤ) {t : List ℕ} (hm : i ∈ t)
    (hnd : t.Nodup) :
    (t.map (fun v => ((flipAssign i s v : ℤ) : ℚ))).prod =
      -(t.map (fun v => ((s v : ℤ) : ℚ))).prod := by
  have hperm : t.Perm (i :: t.erase i) := List.perm_cons_erase hm
  have h1 := (hperm.map (fun v => ((flipAssign i s v : ℤ) : ℚ))).prod_eq
  have h2 := (hperm.map (fun v => ((s v : ℤ) : ℚ))).prod_eq
  rw [h1, h2, List.map_cons, List.prod_cons, List.map_cons, List.prod_cons]
  have hflip_i : ((flipAssign i s i : ℤ) : ℚ) = -((s i : ℤ) : ℚ) := by
    simp [flipAssign]
  have herase : ∀ v ∈ t.erase i,
      ((flipAssign i s v : ℤ) : ℚ) = ((s v : ℤ) : ℚ) := by
    intro v hv
    have hvi : v ≠ i := ((List.Nodup.mem_erase_iff hnd).1 hv).1
    simp [flipAssign, hvi]
  rw [List.map_congr_left herase, hflip_i]
  ring

/-- Flipping variable `i` changes the full energy by exactly
`-2 * puso_value s (subgraph i model)` when every term has
pairwise-distinct labels. -/
theorem puso_value_flip (model : Model) (s : ℕ → ℤ) (i : ℕ)
    (hm : ∀ tc ∈ model, tc.1.Nodup) :
    puso_value (flipAssign i s) model =
      puso_value s model - 2 * puso_value s (subgraph i model) := by
  induction model with
  | nil => simp [puso_value, subgraph]
  | cons tc rest ih =>
    have hhead : tc.1.Nodup := hm tc (List.mem_cons_self _ _)
    have hrest : ∀ tc' ∈ rest, tc'.1.Nodup :=
      fun tc' h' => hm tc' (List.mem_cons_of_mem _ h')
    rw [puso_value_cons, puso_value_cons, subgraph_cons, ih hrest]
    by_cases hi : i ∈ tc.1
    · rw [if_pos hi, prod_flip_mem i s hi hhead, puso_value_cons]
      ring
    · rw [if_neg hi, prod_flip_not_mem i s hi]
      ring

/-- C2: for every model whose terms each have pairwise-distinct labels,
every total assignment into the bipolar domain, and every variable, the
engine's locally computed delta `-2 * puso_value(state, subgraphs[i])`
equals the brute-force energy difference `fullEnergy(after flipping i) -
fullEnergy(before)`. -/
theorem c2_delta_correct (model : Model) (s : ℕ → ℤ) (i : ℕ)
    (hm : ∀ tc ∈ model, tc.1.Nodup)
    (hs : ∀ v : ℕ, s v = 1 ∨ s v = -1) :
    -2 * puso_value s (subgraph i model) =
      puso_value (flipAssign i s) model - puso_value s model := by
  rw [puso_value_flip model s i hm]
  ring

/-- Witness for C2 at the two-spin ferromagnetic model. -/
theorem c2_delta_correct_witness :
    (∀ tc ∈ ([([0, 1], -1)] : Model), tc.1.Nodup) ∧
    -2 * puso_value (fun _ => 1) (subgraph 0 [([0, 1], -1)]) =
      puso_value (flipAssign 0 (fun _ => 1)) [([0, 1], -1)] -
        puso_value (fun _ => 1) [([0, 1], -1)] :=
  ⟨by decide,
   c2_delta_correct [([0, 1], -1)] (fun _ => 1) 0 (by decide)
     (fun _ => Or.inl rfl)⟩

/-! ## Validation order and schedule equivalence of update -/

/-- The two-spin ferromagnetic chain at its all-up local optimum, with
history capacity 2: the concrete engine used by several witnesses. -/
def simFerro : Sim := initSim [([0, 1], -1)] [0, 1] (fun _ => 1) 2

theorem update_nonneg_eq (sim : Sim) (rng : Rng) (T : ℚ) (n : ℤ)
    (seed : Option ℤ) (hn : 0 ≤ n) :
    update sim rng T n seed =
      (none, (update1 T)^[n.toNat] (sim, applySeed rng seed)) := by
  unfold update
  rw [if_neg (not_lt.2 hn)]
  by_cases h1 : 1 < n
  · rw [if_pos h1]
  · rw [if_neg h1]
    by_cases he : n = 1
    · subst he
      norm_num
    · have h0 : n = 0 := by omega
      subst h0
      norm_num

theorem update_one_eq (T : ℚ) :
    (fun sr : Sim × Rng => (update sr.1 sr.2 T 1 none).2) = update1 T := by
  funext sr
  rw [update_nonneg_eq sr.1 sr.2 T 1 none (by norm_num)]
  simp [applySeed]

theorem schedule_foldl_aux (phases : List (ℚ × ℤ)) :
    ∀ sr : Sim × Rng, (∀ p ∈ phases, 0 ≤ p.2) →
      phases.foldl
        (fun acc p =>
          match acc.1 with
          | some _ => acc
          | none => update acc.2.1 acc.2.2 p.1 p.2 none)
        (none, sr.1, sr.2) =
      (none, phases.foldl (fun sr' p => (update1 p.1)^[p.2.toNat] sr') sr) := by
  induction phases with
  | nil => intro sr _; simp
  | cons p t ih =>
    intro sr h
    rw [List.foldl_cons, List.foldl_cons]
    have hp : 0 ≤ p.2 := h p (List.mem_cons_self _ _)
    have ht : ∀ q ∈ t, 0 ≤ q.2 :=
      fun q hq => h q (List.mem_cons_of_mem _ hq)
    have hupd : update sr.1 sr.2 p.1 p.2 none =
        (none, (update1 p.1)^[p.2.toNat] sr) := by
      rw [update_nonneg_eq sr.1 sr.2 p.1 p.2 none hp]
      simp [applySeed]
    simp only [hupd]
    exact ih ((update1 p.1)^[p.2.toNat] sr) ht

/-- `schedule_update` runs exactly the single-sweep updates phase by phase,
after one seeding, and raises nothing on a well-formed schedule. -/
theorem schedule_update_eq (sim : Sim) (rng : Rng) (phases : List (ℚ × ℤ))
    (seed : Option ℤ) (h : ∀ p ∈ phases, 0 ≤ p.2) :
    schedule_update sim rng phases seed =
      (none, singleUpdates (sim, applySeed rng seed) phases) := by
  unfold schedule_update singleUpdates
  simp only [update_one_eq]
  exact schedule_foldl_aux phases (sim, applySeed rng seed) h

/-- C8: for every starting engine configuration, every schedule of
(temperature, sweep-count) phases and every optional seed, `schedule_update`
produces exactly the same final state, history and random-source state as
seeding once at the same point and then issuing, for each phase in order,
that phase's number of single-sweep `update` calls at that phase's
temperature. -/
theorem c8_schedule_equiv (sim : Sim) (rng : Rng) (phases : List (ℚ × ℤ))
    (seed : Option ℤ) (h : ∀ p ∈ phases, 0 ≤ p.2) :
    schedule_update sim rng phases seed =
      (none, singleUpdates (sim, applySeed rng seed) phases) :=
  schedule_update_eq sim rng phases seed h

/-- Witness for C8 at a concrete engine, schedule and seed point. -/
theorem c8_schedule_equiv_witness :
    (∀ p ∈ ([(0, 1)] : List (ℚ × ℤ)), 0 ≤ p.2) ∧
    schedule_update simFerro (Rng.mk 3) [(0, 1)] none =
      (none, singleUpdates (simFerro, applySeed (Rng.mk 3) none) [(0, 1)]) :=
  ⟨by decide, c8_schedule_equiv simFerro (Rng.mk 3) [(0, 1)] none (by decide)⟩

/-- C4 corrected: neither `update` nor `schedule_update` validates the
temperature; a call with a negative temperature (and a well-formed sweep
count) completes without raising anything, processing the negative
temperature like any other nonzero temperature. -/
theorem c4_no_temperature_validation :
    (∀ (sim : Sim) (rng : Rng) (T : ℚ) (n : ℤ) (seed : Option ℤ),
      0 ≤ n → (update sim rng T n seed).1 = none) ∧
    (∀ (sim : Sim) (rng : Rng) (phases : List (ℚ × ℤ)) (seed : Option ℤ),
      (∀ p ∈ phases, 0 ≤ p.2) → (schedule_update sim rng phases seed).1 = none) := by
  constructor
  · intro sim rng T n seed hn
    rw [update_nonneg_eq sim rng T n seed hn]
  · intro sim rng phases seed h
    rw [schedule_update_eq sim rng phases seed h]

/-- Counterexample to C4 as stated: a concrete `update` call at temperature
-1 raises nothing at all (its error component is `none`, in particular not
`InvalidScheduleEntry`), and it mutates the history as any successful
update does. -/
theorem c4_counterexample :
    (update simFerro (Rng.mk 0) (-1) 1 none).1 = none ∧
    (schedule_update simFerro (Rng.mk 0) [(-1, 1)] none).1 = none := by
  constructor
  · rw [update_nonneg_eq simFerro (Rng.mk 0) (-1) 1 none (by norm_num)]
  · rw [schedule_update_eq simFerro (Rng.mk 0) [(-1, 1)] none (by decide)]

/-- Witness for C4's amended statement, exercised at a negative-temperature
schedule phase. -/
theorem c4_no_temperature_validation_witness :
    (0 : ℤ) ≤ 2 ∧ (update simFerro (Rng.mk 1) (-3) 2 none).1 = none ∧
    (schedule_update simFerro (Rng.mk 1) [(-3, 2)] (some 5)).1 = none :=
  ⟨by decide,
   c4_no_temperature_validation.1 simFerro (Rng.mk 1) (-3) 2 none (by decide),
   c4_no_temperature_validation.2 simFerro (Rng.mk 1) [(-3, 2)] (some 5)
     (by decide)⟩

/-- C6 corrected: a call `update(T, n, seed)` with `n < 0` raises
`InvalidUpdateCount` with the state and history untouched, but only after
the seeding step: when a seed is given the shared random source has already
been re-initialized when the call raises. -/
theorem c6_seed_then_validate (sim : Sim) (rng : Rng) (T : ℚ) (n : ℤ)
    (seed : Option ℤ) (hn : n < 0) :
    update sim rng T n seed =
      (some SimErr.invalidUpdateCount, sim, applySeed rng seed) := by
  unfold update
  rw [if_pos hn]

/-- Counterexample to C6 as stated: on a concrete failing call with an
explicit seed, the random source ends re-initialized to the seeded state,
which differs from its state before the call (the claim says it is not
re-initialized); state and history are unchanged. -/
theorem c6_counterexample :
    (update simFerro (Rng.mk 7) 0 (-1) (some 42)).1 =
      some SimErr.invalidUpdateCount ∧
    (update simFerro (Rng.mk 7) 0 (-1) (some 42)).2.2 = rngSeed 42 ∧
    rngSeed 42 ≠ Rng.mk 7 ∧
    (update simFerro (Rng.mk 7) 0 (-1) (some 42)).2.1 = simFerro :=
  ⟨rfl, rfl, by decide, rfl⟩

/-- Witness for C6's amended statement at the same concrete call. -/
theorem c6_seed_then_validate_witness :
    update simFerro (Rng.mk 7) 0 (-1) (some 42) =
      (some SimErr.invalidUpdateCount, simFerro, applySeed (Rng.mk 7) (some 42)) :=
  c6_seed_then_validate simFerro (Rng.mk 7) 0 (-1) (some 42) (by decide)

/-! ## Greedy descent at temperature zero -/

theorem foldl_pres {σ β : Type} (P : σ → Prop) (f : σ → β → σ)
    (hf : ∀ s b, P s → P (f s b)) :
    ∀ (l : List β) (s : σ), P s → P (l.foldl f s) := by
  intro l
  induction l with
  | nil => intro s hs; exact hs
  | cons b t ih =>
    intro s hs
    rw [List.foldl_cons]
    exact ih (f s b) (hf s b hs)

theorem metropolis_step_frame (T : ℚ) (sr : Sim × Rng) (i : ℕ) :
    (metropolis_step T sr i).1.vars = sr.1.vars ∧
    (metropolis_step T sr i).1.pastStates = sr.1.pastStates ∧
    (metropolis_step T sr i).1.memory = sr.1.memory ∧
    (metropolis_step T sr i).1.model = sr.1.model ∧
    (metropolis_step T sr i).1.initialState = sr.1.initialState := by
  unfold metropolis_step
  dsimp only
  split
  · exact ⟨rfl, rfl, rfl, rfl, rfl⟩
  · split
    · exact ⟨rfl, rfl, rfl, rfl, rfl⟩
    · split
      · exact ⟨rfl, rfl, rfl, rfl, rfl⟩
      · exact ⟨rfl, rfl, rfl, rfl, rfl⟩

theorem add_past_state_frame (sim : Sim) :
    (add_past_state sim).vars = sim.vars ∧
    (add_past_state sim).state = sim.state ∧
    (add_past_state sim).memory = sim.memory ∧
    (add_past_state sim).model = sim.model ∧
    (add_past_state sim).initialState = sim.initialState := by
  unfold add_past_state
  split
  · exact ⟨rfl, rfl, rfl, rfl, rfl⟩
  · exact ⟨rfl, rfl, rfl, rfl, rfl⟩

/-- At temperature 0 the candidate body degenerates to pure greedy descent:
flip exactly when the local delta is nonpositive, never touching the random
source in the acceptance decision. -/
theorem metropolis_step_zero (sr : Sim × Rng) (i : ℕ) :
    metropolis_step 0 sr i =
      if -2 * puso_value sr.1.state (subgraph i sr.1.model) ≤ 0
      then (flip_bit sr.1 i, sr.2) else sr := by
  unfold metropolis_step
  dsimp only
  by_cases h : -2 * puso_value sr.1.state (subgraph i sr.1.model) ≤ 0
  · rw [if_pos h, if_pos h]
  · rw [if_neg h, if_neg h, if_pos rfl]

theorem spinEnergy_flip (sim : Sim) (i : ℕ)
    (hm : ∀ tc ∈ sim.model, tc.1.Nodup) :
    spinEnergy (flip_bit sim i) =
      spinEnergy sim - 2 * puso_value sim.state (subgraph i sim.model) := by
  unfold spinEnergy flip_bit
  exact puso_value_flip sim.model sim.state i hm

theorem metropolis_step_zero_energy (sr : Sim × Rng) (i : ℕ)
    (hm : ∀ tc ∈ sr.1.model, tc.1.Nodup) :
    spinEnergy (metropolis_step 0 sr i).1 ≤ spinEnergy sr.1 := by
  rw [metropolis_step_zero]
  by_cases h : -2 * puso_value sr.1.state (subgraph i sr.1.model) ≤ 0
  · rw [if_pos h]
    dsimp only
    rw [spinEnergy_flip sr.1 i hm]
    linarith
  · rw [if_neg h]

theorem foldl_steps_zero (draws : List ℕ) :
    ∀ sr : Sim × Rng, (∀ tc ∈ sr.1.model, tc.1.Nodup) →
      spinEnergy (draws.foldl (metropolis_step 0) sr).1 ≤ spinEnergy sr.1 ∧
      (draws.foldl (metropolis_step 0) sr).1.model = sr.1.model := by
  induction draws with
  | nil => intro sr _; exact ⟨le_refl _, rfl⟩
  | cons i t ih =>
    intro sr hm
    rw [List.foldl_cons]
    have hstep_model : (metropolis_step 0 sr i).1.model = sr.1.model :=
      (metropolis_step_frame 0 sr i).2.2.2.1
    have hm' : ∀ tc ∈ (metropolis_step 0 sr i).1.model, tc.1.Nodup := by
      rw [hstep_model]; exact hm
    have hrec := ih (metropolis_step 0 sr i) hm'
    exact ⟨le_trans hrec.1 (metropolis_step_zero_energy sr i hm),
      hrec.2.trans hstep_model⟩

theorem update1_zero_energy (sr : Sim × Rng)
    (hm : ∀ tc ∈ sr.1.model, tc.1.Nodup) :
    spinEnergy (update1 0 sr).1 ≤ spinEnergy sr.1 ∧
    (update1 0 sr).1.model = sr.1.model := by
  unfold update1 doSweep
  dsimp only
  have hframe := add_past_state_frame sr.1
  have hE : spinEnergy (add_past_state sr.1) = spinEnergy sr.1 := by
    unfold spinEnergy
    rw [hframe.2.1, hframe.2.2.2.1]
  have hm' : ∀ tc ∈ (add_past_state sr.1).model, tc.1.Nodup := by
    rw [hframe.2.2.2.1]; exact hm
  have hfold := foldl_steps_zero
    (rngChoices (add_past_state sr.1).vars (add_past_state sr.1).vars.length sr.2).1
    ((add_past_state sr.1),
      (rngChoices (add_past_state sr.1).vars (add_past_state sr.1).vars.length sr.2).2)
    hm'
  exact ⟨le_of_le_of_eq hfold.1 hE, hfold.2.trans hframe.2.2.2.1⟩

theorem iterate_update1_zero (n : ℕ) :
    ∀ sr : Sim × Rng, (∀ tc ∈ sr.1.model, tc.1.Nodup) →
      spinEnergy ((update1 0)^[n] sr).1 ≤ spinEnergy sr.1 ∧
      ((update1 0)^[n] sr).1.model = sr.1.model := by
  induction n with
  | zero => intro sr _; simp
  | succ k ih =>
    intro sr hm
    rw [Function.iterate_succ_apply]
    have h1 := update1_zero_energy sr hm
    have hm' : ∀ tc ∈ (update1 0 sr).1.model, tc.1.Nodup := by
      rw [h1.2]; exact hm
    have hrec := ih (update1 0 sr) hm'
    exact ⟨le_trans hrec.1 h1.1, hrec.2.trans h1.2⟩

/-- C7: at temperature 0, the candidate body accepts a flip exactly when
its delta is nonpositive (with the random source untouched by the
acceptance decision), every single sweep is energy-non-increasing, and a
whole run of any number of sweeps at temperature 0 never increases the
total energy. -/
theorem c7_zero_temperature_greedy :
    (∀ (sr : Sim × Rng) (i : ℕ),
      metropolis_step 0 sr i =
        if -2 * puso_value sr.1.state (subgraph i sr.1.model) ≤ 0
        then (flip_bit sr.1 i, sr.2) else sr) ∧
    (∀ sr : Sim × Rng, (∀ tc ∈ sr.1.model, tc.1.Nodup) →
      spinEnergy (update1 0 sr).1 ≤ spinEnergy sr.1) ∧
    (∀ (sim : Sim) (rng : Rng) (n : ℤ) (seed : Option ℤ),
      (∀ tc ∈ sim.model, tc.1.Nodup) → 0 ≤ n →
      spinEnergy (update sim rng 0 n seed).2.1 ≤ spinEnergy sim) := by
  refine ⟨metropolis_step_zero, fun sr hm => (update1_zero_energy sr hm).1, ?_⟩
  intro sim rng n seed hm hn
  rw [update_nonneg_eq sim rng 0 n seed hn]
  exact (iterate_update1_zero n.toNat (sim, applySeed rng seed) hm).1

/-- Witness for C7 at a concrete run of three sweeps on the ferromagnetic
pair. -/
theorem c7_zero_temperature_greedy_witness :
    (∀ tc ∈ simFerro.model, tc.1.Nodup) ∧
    spinEnergy (update simFerro (Rng.mk 0) 0 3 none).2.1 ≤ spinEnergy simFerro :=
  ⟨by decide,
   c7_zero_temperature_greedy.2.2 simFerro (Rng.mk 0) 3 none (by decide)
     (by decide)⟩

/-! ## History retention -/

theorem get_past_states_some (sim : Sim) (n : ℤ) (hn : 2 ≤ n) :
    get_past_states sim (some n) =
      takeLast sim.pastStates (n - 1).toNat ++ [sim.state] := by
  unfold get_past_states
  rw [if_neg (by simp only [Option.some.injEq]; omega)]
  unfold pySliceFrom takeLast
  rw [if_neg (by simp only [Option.getD_some]; omega)]
  have hcast : (-(1 - (some n).getD (sim.memory : ℤ))).toNat = (n - 1).toNat := by
    simp only [Option.getD_some]
    omega
  rw [hcast]

/-- C1 corrected: for `n ≥ 2`, `get_past_states` returns the most-recent
`min(n-1, available)` snapshots followed by the current state; with `n`
omitted it behaves exactly as `n = memory`: under the engine invariant that
at most `memory` snapshots are stored, that is the most-recent
`min(memory - 1, available)` snapshots followed by the current state when
`memory ≥ 2`, and all available snapshots followed by the current state when
`memory ≤ 1`. -/
theorem c1_get_past_states (sim : Sim)
    (hinv : sim.pastStates.length ≤ sim.memory) :
    (∀ n : ℤ, 2 ≤ n →
      get_past_states sim (some n) =
        takeLast sim.pastStates (n - 1).toNat ++ [sim.state]) ∧
    (2 ≤ sim.memory →
      get_past_states sim none =
        takeLast sim.pastStates (sim.memory - 1) ++ [sim.state]) ∧
    (sim.memory ≤ 1 →
      get_past_states sim none = sim.pastStates ++ [sim.state]) := by
  refine ⟨fun n hn => get_past_states_some sim n hn, ?_, ?_⟩
  · intro hmem
    unfold get_past_states
    rw [if_neg (by simp)]
    unfold pySliceFrom takeLast
    rw [if_neg (by simp only [Option.getD_none]; omega)]
    have hcast : (-(1 - (none : Option ℤ).getD (sim.memory : ℤ))).toNat =
        sim.memory - 1 := by
      simp only [Option.getD_none]
      omega
    rw [hcast]
  · intro hmem
    unfold get_past_states
    rw [if_neg (by simp)]
    unfold pySliceFrom
    rw [if_pos (by simp only [Option.getD_none]; omega)]
    rcases Nat.le_one_iff_eq_zero_or_eq_one.1 hmem with h0 | h1
    · have hnil : sim.pastStates = [] :=
        List.eq_nil_of_length_eq_zero (Nat.le_zero.1 (h0 ▸ hinv))
      rw [hnil]
      simp
    · have : ((1 : ℤ) - (none : Option ℤ).getD (sim.memory : ℤ)).toNat = 0 := by
        simp only [Option.getD_none, h1]
        omega
      rw [this]
      simp

/-- A single `update(T=0)` call, as used to reach the counterexample
state. -/
def upd0 (sr : Sim × Rng) : Sim × Rng := (update sr.1 sr.2 0 1 none).2

/-- The ferromagnetic pair engine (memory 2) after two single-sweep updates
at temperature 0: both snapshots stored, state still all up. -/
def simC1run : Sim := (upd0 (upd0 (simFerro, Rng.mk 0))).1

/-- Counterexample to C1 as stated: after two updates the engine holds 2 =
memory snapshots, yet `get_past_states()` with the argument omitted returns
only 2 elements — the claimed "up-to-memory most-recent snapshots followed
by the current state" would have 3. -/
theorem c1_counterexample :
    simC1run.memory = 2 ∧
    simC1run.pastStates.length = 2 ∧
    (get_past_states simC1run none).length = 2 ∧
    get_past_states simC1run none ≠
      takeLast simC1run.pastStates simC1run.memory ++ [simC1run.state] := by
  refine ⟨by decide, by decide, by decide, fun h => ?_⟩
  have h2 : (get_past_states simC1run none).length = 2 := by decide
  have h3 : (takeLast simC1run.pastStates simC1run.memory ++
      [simC1run.state]).length = 3 := by decide
  rw [h, h3] at h2
  exact absurd h2 (by decide)

/-- Witness for C1's amended statement, at the engine state reached by the
two concrete updates. -/
theorem c1_get_past_states_witness :
    simC1run.pastStates.length ≤ simC1run.memory ∧
    get_past_states simC1run none =
      takeLast simC1run.pastStates (simC1run.memory - 1) ++ [simC1run.state] :=
  ⟨by decide, (c1_get_past_states simC1run (by decide)).2.1 (by decide)⟩

/-! ## The memory-0 history invariant -/

/-- The engine retains no snapshots: capacity 0 and empty buffer. -/
def Mem0 (sim : Sim) : Prop := sim.memory = 0 ∧ sim.pastStates = []

theorem add_past_state_mem0 {sim : Sim} (h : sim.memory = 0) :
    add_past_state sim = sim := by
  unfold add_past_state
  rw [if_pos h]

theorem metropolis_step_mem0 (T : ℚ) (sr : Sim × Rng) (i : ℕ)
    (h : Mem0 sr.1) : Mem0 (metropolis_step T sr i).1 :=
  ⟨((metropolis_step_frame T sr i).2.2.1).trans h.1,
   ((metropolis_step_frame T sr i).2.1).trans h.2⟩

theorem update1_mem0 (T : ℚ) (sr : Sim × Rng) (h : Mem0 sr.1) :
    Mem0 (update1 T sr).1 := by
  unfold update1 doSweep
  dsimp only
  rw [add_past_state_mem0 h.1]
  exact foldl_pres (fun sr' : Sim × Rng => Mem0 sr'.1) (metropolis_step T)
    (fun s b hs => metropolis_step_mem0 T s b hs) _ (sr.1, _) h

theorem iterate_update1_mem0 (T : ℚ) (n : ℕ) :
    ∀ sr : Sim × Rng, Mem0 sr.1 → Mem0 ((update1 T)^[n] sr).1 := by
  induction n with
  | zero => intro sr h; exact h
  | succ k ih =>
    intro sr h
    rw [Function.iterate_succ_apply]
    exact ih (update1 T sr) (update1_mem0 T sr h)

theorem update_mem0 (sim : Sim) (rng : Rng) (T : ℚ) (n : ℤ)
    (seed : Option ℤ) (h : Mem0 sim) : Mem0 (update sim rng T n seed).2.1 := by
  by_cases hneg : n < 0
  · unfold update
    rw [if_pos hneg]
    exact h
  · rw [update_nonneg_eq sim rng T n seed (not_lt.1 hneg)]
    exact iterate_update1_mem0 T n.toNat (sim, applySeed rng seed) h

theorem schedule_update_mem0 (sim : Sim) (rng : Rng)
    (phases : List (ℚ × ℤ)) (seed : Option ℤ) (h : Mem0 sim) :
    Mem0 (schedule_update sim rng phases seed).2.1 := by
  unfold schedule_update
  refine foldl_pres (fun acc : Option SimErr × Sim × Rng => Mem0 acc.2.1)
    _ ?_ phases (none, sim, applySeed rng seed) h
  intro acc p hacc
  rcases acc with ⟨e, s, r⟩
  cases e with
  | none => exact update_mem0 s r p.1 p.2 none hacc
  | some err => exact hacc

theorem runSimOps_mem0 (sr : Sim × Rng) (ops : List SimOp) (h : Mem0 sr.1) :
    Mem0 (runSimOps sr ops).1 := by
  unfold runSimOps
  refine foldl_pres (fun sr' : Sim × Rng => Mem0 sr'.1) applySimOp ?_ ops sr h
  intro s op hs
  cases op with
  | upd T n seed => exact update_mem0 s.1 s.2 T n seed hs
  | sched ph seed => exact schedule_update_mem0 s.1 s.2 ph seed hs

/-- C9: an engine constructed with memory 0, after any sequence of `update`
and `schedule_update` calls, returns from `get_past_states()` with the
argument omitted exactly the one-element list holding the current state. -/
theorem c9_memory_zero (model : Model) (vars : List ℕ) (st : ℕ → ℤ)
    (rng : Rng) (ops : List SimOp) :
    get_past_states (runSimOps (initSim model vars st 0, rng) ops).1 none =
      [(runSimOps (initSim model vars st 0, rng) ops).1.state] := by
  have hfin : Mem0 (runSimOps (initSim model vars st 0, rng) ops).1 :=
    runSimOps_mem0 (initSim model vars st 0, rng) ops ⟨rfl, rfl⟩
  unfold get_past_states
  rw [if_neg (by simp)]
  rw [hfin.2, hfin.1]
  simp [pySliceFrom]

/-! ## State-domain validation -/

/-- C5 corrected: on an assignment with a value outside the required
domain, both engines fail with `InvalidStateValue`; the Boolean adapter's
`set_state` leaves the held state unchanged, but the bipolar engine's
`set_state` has already replaced the held state with the supplied
assignment when it raises. -/
theorem c5_set_state_validation (sim : Sim) (st : ℕ → ℤ) :
    ((∃ v ∈ sim.vars, st v ≠ 1 ∧ st v ≠ -1) →
      set_state sim st =
        (some SimErr.invalidStateValue, { sim with state := st })) ∧
    ((∃ v ∈ sim.vars, st v ≠ 0 ∧ st v ≠ 1) →
      bool_set_state sim st = (some SimErr.invalidStateValue, sim)) := by
  constructor
  · intro h
    have hc : (sim.vars.any (fun v => decide (st v ≠ 1 ∧ st v ≠ -1))) = true := by
      simp only [List.any_eq_true, decide_eq_true_eq]
      exact h
    unfold set_state
    rw [if_pos hc]
  · intro h
    have hc : (sim.vars.any (fun v => decide (st v ≠ 0 ∧ st v ≠ 1))) = true := by
      simp only [List.any_eq_true, decide_eq_true_eq]
      exact h
    unfold bool_set_state
    rw [if_pos hc]

/-- The single-variable engine used by the C5 counterexample, with held
state 1 everywhere. -/
def simC5 : Sim := initSim [([0], 1)] [0] (fun _ => 1) 0

/-- Counterexample to C5 as stated: on the out-of-domain assignment 5, the
bipolar engine raises `InvalidStateValue` but its held state has been
replaced (it now reads 5 where it read 1 before the call), while the
Boolean adapter's failing call leaves the held state at 1. -/
theorem c5_counterexample :
    (set_state simC5 (fun _ => 5)).1 = some SimErr.invalidStateValue ∧
    simC5.state 0 = 1 ∧
    (set_state simC5 (fun _ => 5)).2.state 0 = 5 ∧
    (bool_set_state simC5 (fun _ => 5)).1 = some SimErr.invalidStateValue ∧
    (bool_set_state simC5 (fun _ => 5)).2.state 0 = 1 :=
  ⟨by decide, rfl, by decide, by decide, by decide⟩

/-- Witness for C5's amended statement at the same concrete engine and
assignment. -/
theorem c5_set_state_validation_witness :
    set_state simC5 (fun _ => 5) =
      (some SimErr.invalidStateValue, { simC5 with state := fun _ => 5 }) ∧
    bool_set_state simC5 (fun _ => 5) = (some SimErr.invalidStateValue, simC5) :=
  ⟨(c5_set_state_validation simC5 (fun _ => 5)).1
     ⟨0, by decide, by decide, by decide⟩,
   (c5_set_state_validation simC5 (fun _ => 5)).2
     ⟨0, by decide, by decide, by decide⟩⟩

end Qubovert
